import Mathlib

/-!
Verification of the span-splice transform of `src/app.py`
("Strip Python Function Bodies (Keep Docstrings)").

The Python source text is modelled as a `List Char` (a Python `str` is a
sequence of code points).  The parse tree produced by the external parser
`ast.parse` is modelled by the mutually inductive types `Stmt` / `StmtList`:
only the node kinds that the program inspects are distinguished (function
definitions, asynchronous function definitions, class definitions,
expression statements whose value is a string constant, other expression
statements, other simple statements, and other compound statements that
contain nested statements).  Every node carries the position attributes
`lineno`, `col_offset`, `end_lineno`, `end_col_offset` that `ast.parse`
reports on Python 3.8+ (1-based lines, end-exclusive 0-based columns).

Two different line decompositions occur in the program and are both
modelled.  `str.splitlines` -- used by the app's `_line_starts` -- breaks at
`"\n"`, `"\r"`, `"\r\n"` and also at `"\x0b"`, `"\x0c"`, `"\x1c"`-`"\x1e"`,
`"\x85"`, `"\u2028"`, `"\u2029"` (`splitlinesKeepends` below).  The parser's
own line numbering, which `ast` positions refer to and which the standard
library's `ast._splitlines_no_ff` mimics inside `ast.get_source_segment`,
breaks only at `"\n"`, `"\r\n"` and `"\r"` (`splitlinesNoFF` below).  The
two disagree on any text containing the extra boundary characters (for
instance a form-feed page separator), which is the root of the offset bug
established in the form-feed theorems below.  Columns are modelled as
code-point offsets; for the texts considered here (ASCII plus the
single-byte control characters) they coincide with the parser's UTF-8 byte
columns.

All definitions are translated from `src/app.py`; the parser itself is
external (the Python standard library), so the entry point takes the parse
result as an argument, and `SyntaxErr` models the `SyntaxError` it raises.
Python's `sorted` is a stable sort; the model uses `List.insertionSort`,
which with the insertion rule of `List.orderedInsert` is also stable, and a
stable sort of a list under a fixed total preorder is unique, so the two
agree element for element.
-/

abbrev Text := List Char

/-- Position attributes carried by every AST node (Python 3.8+):
1-based `lineno`/`endLineno`, 0-based end-exclusive `colOffset`/`endColOffset`. -/
structure Pos where
  lineno : Nat
  colOffset : Nat
  endLineno : Nat
  endColOffset : Nat
deriving Repr, DecidableEq

mutual
/-- The statement-level parse tree, restricted to the node kinds that
`src/app.py` distinguishes.  `otherCompound` stands for any other statement
that contains nested statements (`if`, `for`, `while`, `with`, `try`, ...)
through which `ast.NodeVisitor.generic_visit` recurses; `otherSimple` stands
for statements without nested statements (`return`, assignments, `pass`, ...);
`exprOther` is an expression statement whose value is not a string constant
(a number, a call, a lambda expression, ...). -/
inductive Stmt where
  | functionDef (name : String) (body : StmtList) (pos : Pos)
  | asyncFunctionDef (name : String) (body : StmtList) (pos : Pos)
  | classDef (name : String) (body : StmtList) (pos : Pos)
  | exprStr (value : String) (pos : Pos)
  | exprOther (pos : Pos)
  | otherSimple (pos : Pos)
  | otherCompound (children : StmtList) (pos : Pos)
/-- A sequence of statements (a function/class/module body). -/
inductive StmtList where
  | nil
  | cons (s : Stmt) (rest : StmtList)
end

/-- Build a `StmtList` from a Lean list literal. -/
def StmtList.ofList : List Stmt → StmtList
  | [] => .nil
  | s :: rest => .cons s (ofList rest)

/-- The position attributes of a statement node. -/
def Stmt.pos : Stmt → Pos
  | .functionDef _ _ p => p
  | .asyncFunctionDef _ _ p => p
  | .classDef _ _ p => p
  | .exprStr _ p => p
  | .exprOther p => p
  | .otherSimple p => p
  | .otherCompound _ p => p

/-- The nested statements of a node, i.e. the statement-valued children that
`generic_visit` recurses into. -/
def Stmt.children : Stmt → StmtList
  | .functionDef _ body _ => body
  | .asyncFunctionDef _ body _ => body
  | .classDef _ body _ => body
  | .otherCompound cs _ => cs
  | _ => .nil

/-- Whether a node is a `def` or `async def` definition (the two node kinds
the visitor of `src/app.py` handles). -/
def isFuncDef : Stmt → Bool
  | .functionDef _ _ _ => true
  | .asyncFunctionDef _ _ _ => true
  | _ => false

/-- `src/app.py` lines 20-31, `_is_docstring_stmt`: an `ast.Expr` statement
whose value is a string constant (the modern `ast.Constant` carrying a `str`
and the legacy `ast.Str` node kind both collapse to `Stmt.exprStr`). -/
def _is_docstring_stmt : Stmt → Bool
  | .exprStr _ _ => true
  | _ => false

/-- The line-boundary characters of Python's `str.splitlines`: `"\n"`,
`"\r"`, `"\x0b"`, `"\x0c"`, `"\x1c"`, `"\x1d"`, `"\x1e"`, `"\x85"`,
`"\u2028"` and `"\u2029"` (`"\r\n"` is kept together as one boundary). -/
def isPyLineBoundary (c : Char) : Bool :=
  c = '\n' || c = '\r' || c = '\x0B' || c = '\x0C' || c = '\x1C' || c = '\x1D'
    || c = '\x1E' || c = '\x85' || c = '\u2028' || c = '\u2029'

/-- Length of the first line of `l`, including its terminator, under the
boundaries of `str.splitlines`; the whole of `l` when no boundary occurs. -/
def lineLenPy : List Char → Nat
  | [] => 0
  | c :: rest =>
    if c = '\r' then (if rest.head? = some '\n' then 2 else 1)
    else if isPyLineBoundary c then 1
    else 1 + lineLenPy rest

/-- Length of the first line of `l`, including its terminator, under the
parser's line splitting (`"\n"`, `"\r\n"` and `"\r"` only), mimicking the
standard library's `ast._splitlines_no_ff`; the whole of `l` when no
terminator occurs. -/
def lineLenNoFF : List Char → Nat
  | [] => 0
  | c :: rest =>
    if c = '\n' then 1
    else if c = '\r' then (if rest.head? = some '\n' then 2 else 1)
    else 1 + lineLenNoFF rest

/-- Fuel-driven worker for line splitting with line-length function `ll`;
one unit of fuel is spent per produced line, and every line consumes at
least one character, so fuel `l.length` always suffices. -/
def slkGo (ll : List Char → Nat) : Nat → List Char → List (List Char)
  | _, [] => []
  | 0, _ :: _ => []
  | fuel + 1, c :: rest =>
    (c :: rest).take (ll (c :: rest)) :: slkGo ll fuel ((c :: rest).drop (ll (c :: rest)))

/-- Python's `text.splitlines(keepends=True)`, with its full boundary set. -/
def splitlinesKeepends (l : List Char) : List (List Char) := slkGo lineLenPy l.length l

/-- The standard library's `ast._splitlines_no_ff`: the line decomposition
the parser's line numbers refer to (`"\n"`, `"\r\n"`, `"\r"` only). -/
def splitlinesNoFF (l : List Char) : List (List Char) := slkGo lineLenNoFF l.length l

/-- `src/app.py` lines 33-41, `_line_starts`: `starts = [0]`, then for each
line of `text.splitlines(keepends=True)` append the running total of line
lengths. -/
def _line_starts (text : Text) : List Nat :=
  (((splitlinesKeepends text).foldl
      (fun (p : List Nat × Nat) (line : Text) => (p.1 ++ [p.2 + line.length], p.2 + line.length))
      ([0], 0))).1

/-- `src/app.py` lines 43-44, `_abs_index`: `line_starts[lineno - 1] + col`.
Python would raise `IndexError` for an out-of-range line number; positions
reported by the parser are always in range, and the model totalises with
default `0`. -/
def _abs_index (line_starts : List Nat) (lineno col : Nat) : Nat :=
  line_starts.getD (lineno - 1) 0 + col

/-- A queued replacement `(start offset, end offset, replacement text)` --
the tuples held in the `replacements` list of
`transform_source_preserve_outside_comments`. -/
abbrev Range := Nat × Nat × Text

/-- The sort order used at `src/app.py` line 49: ascending in the key
`(x[0], -x[1])`, i.e. start offset ascending, then end offset descending. -/
def keyLE (a b : Range) : Prop := a.1 < b.1 ∨ (a.1 = b.1 ∧ b.2.1 ≤ a.2.1)

instance : DecidableRel keyLE := fun a b => by unfold keyLE; infer_instance

instance : IsTotal Range keyLE := ⟨by intro a b; unfold keyLE; omega⟩

instance : IsTrans Range keyLE := ⟨by intro a b c; unfold keyLE; omega⟩

/-- The scan of `src/app.py` lines 50-59: `current_end` starts at `-1`; a
range is kept exactly when its start is at least `current_end`, which is
then advanced to the kept range's end. -/
def dedupeGo : Int → List Range → List Range
  | _, [] => []
  | currentEnd, (s, e, repl) :: rest =>
    if currentEnd ≤ (s : Int) then (s, e, repl) :: dedupeGo (e : Int) rest
    else dedupeGo currentEnd rest

/-- `src/app.py` lines 46-60, `_dedupe_overlapping_ranges`: stable sort by
`(start, -end)`, then keep a range only if its start is `≥` the end of the
last kept range. -/
def _dedupe_overlapping_ranges (ranges : List Range) : List Range :=
  dedupeGo (-1) (ranges.insertionSort keyLE)

/-- The line-start offset table under the parser's line decomposition
(`splitlinesNoFF`).  This is not computed by `src/app.py`; it gives the
offsets that parser-reported `(lineno, col_offset)` positions actually
denote, and is what `ast.get_source_segment` effectively uses.  The app's
`_line_starts` agrees with it only on texts free of the extra
`str.splitlines` boundary characters. -/
def parser_line_starts (text : Text) : List Nat :=
  (((splitlinesNoFF text).foldl
      (fun (p : List Nat × Nat) (line : Text) => (p.1 ++ [p.2 + line.length], p.2 + line.length))
      ([0], 0))).1

/-- The Python standard library's `ast.get_source_segment(source, node)`:
the slice of `source` between the node's start and end positions, computed
over the parser's own line decomposition (CPython splits with
`_splitlines_no_ff` here, not `str.splitlines`).  It returns `None` only
when a node lacks position attributes, which the `Stmt` model always
carries, so the model always returns `some`. -/
def get_source_segment (source : Text) (p : Pos) : Option Text :=
  some ((source.take (_abs_index (parser_line_starts source) p.endLineno p.endColOffset)).drop
          (_abs_index (parser_line_starts source) p.lineno p.colOffset))

/-- The last statement of the non-empty body `first :: rest`
(`body[-1]` at `src/app.py` line 94). -/
def lastStmt (first : Stmt) : StmtList → Stmt
  | .nil => first
  | .cons s rest => lastStmt s rest

/-- `src/app.py` lines 89-128, `Visitor._handle`: for a non-empty body,
queue one replacement from the first body statement's start offset to the
last body statement's end offset.  If the first statement is a docstring the
replacement is its original source segment (with the triple-quote
reconstruction fallback of lines 107-120 for the `None` case, which the
model's `get_source_segment` never produces); otherwise it is the first
body statement's source line up to its start column followed by `pass`.
The Python 3.8+ end-position check of lines 96-98 always succeeds in the
model because `Pos` always carries end positions. -/
def _handle (source : Text) (body : StmtList) : List Range :=
  match body with
  | .nil => []
  | .cons first rest =>
    let line_starts := _line_starts source
    let lines := splitlinesKeepends source
    let last := lastStmt first rest
    let start_idx := _abs_index line_starts first.pos.lineno first.pos.colOffset
    let end_idx := _abs_index line_starts last.pos.endLineno last.pos.endColOffset
    let replacement :=
      if _is_docstring_stmt first then
        match get_source_segment source first.pos with
        | some seg => seg
        | none =>
          let indent := (lines.getD (first.pos.lineno - 1) []).take first.pos.colOffset
          let doc_text := match first with
            | .exprStr v _ => v.toList
            | _ => []
          indent ++ "\"\"\"".toList ++ doc_text ++ "\"\"\"".toList
      else
        let first_line := lines.getD (first.pos.lineno - 1) []
        let indent := first_line.take first.pos.colOffset
        indent ++ "pass".toList
    [(start_idx, end_idx, replacement)]

mutual
/-- `src/app.py` lines 79-130: `Visitor.visit` on one node.  For a `def` or
`async def` node, `_handle` queues its replacement and `generic_visit` then
descends into the node's statements; class bodies and other compound
statements are traversed transparently. -/
def visit (source : Text) : Stmt → List Range
  | .functionDef _ body _ => _handle source body ++ visitList source body
  | .asyncFunctionDef _ body _ => _handle source body ++ visitList source body
  | .classDef _ body _ => visitList source body
  | .otherCompound cs _ => visitList source cs
  | .exprStr _ _ => []
  | .exprOther _ => []
  | .otherSimple _ => []
/-- The visitor's depth-first, pre-order traversal of a statement sequence;
replacements accumulate in document order. -/
def visitList (source : Text) : StmtList → List Range
  | .nil => []
  | .cons s rest => visit source s ++ visitList source rest
end

/-- One splice step, `src/app.py` line 141:
`new_src = new_src[:s] + repl + new_src[e:]`. -/
def spliceApply (acc : Text) (r : Range) : Text :=
  acc.take r.1 ++ r.2.2 ++ acc.drop r.2.1

/-- The sort order used at `src/app.py` line 140:
`sorted(replacements, key=lambda x: x[0], reverse=True)`.  Python's
`reverse=True` keeps the original relative order of equal keys, exactly like
a stable sort under the reversed key comparison. -/
def descLE (a b : Range) : Prop := b.1 ≤ a.1

instance : DecidableRel descLE := fun a b => by unfold descLE; infer_instance

instance : IsTotal Range descLE := ⟨by intro a b; unfold descLE; omega⟩

instance : IsTrans Range descLE := ⟨by intro a b c; unfold descLE; omega⟩

/-- `src/app.py` lines 136-141: deduplicate the queued replacements, then
splice them into the source from highest start offset to lowest. -/
def transform_spliced (source : Text) (tree : StmtList) : Text :=
  let kept := _dedupe_overlapping_ranges (visitList source tree)
  (kept.insertionSort descLE).foldl spliceApply source

/-- The body of `transform_source_preserve_outside_comments`
(`src/app.py` lines 74-146) after the parse step: collect replacements, and
if there are none return the source unchanged; otherwise dedupe, splice from
the end, and append one `"\n"` if the source ended with a newline and the
spliced result does not. -/
def transform_core (source : Text) (tree : StmtList) : Text :=
  let replacements := visitList source tree
  if replacements = [] then source
  else
    let new_src := transform_spliced source tree
    if source.getLast? = some '\n' ∧ ¬ new_src.getLast? = some '\n' then new_src ++ ['\n']
    else new_src

/-- The `SyntaxError` raised by the external parser, carrying its diagnostic
rendering (message and location) as a string. -/
structure SyntaxErr where
  msg : String
deriving Repr, DecidableEq

/-- `src/app.py` lines 62-146, `transform_source_preserve_outside_comments`.
The call `ast.parse(source)` at line 70 is external (the Python standard
library), so the model takes its outcome as the argument `parsed`: a
`SyntaxError` is re-raised with the original diagnostic embedded
(lines 71-72, `raise SyntaxError(f"Failed to parse Python source: {e}")`),
and otherwise the transform proceeds on the parse tree. -/
def transform_source_preserve_outside_comments (source : Text)
    (parsed : Except SyntaxErr StmtList) : Except SyntaxErr Text :=
  match parsed with
  | .error e => .error ⟨"Failed to parse Python source: " ++ e.msg⟩
  | .ok tree => .ok (transform_core source tree)

mutual
/-- Whether a single statement is or contains a `def` / `async def` node. -/
def stmtHasDef : Stmt → Bool
  | .functionDef _ _ _ => true
  | .asyncFunctionDef _ _ _ => true
  | .classDef _ body _ => containsDef body
  | .otherCompound cs _ => containsDef cs
  | .exprStr _ _ => false
  | .exprOther _ => false
  | .otherSimple _ => false
/-- Whether a statement sequence contains a `def` / `async def` node at any
depth reachable by the visitor. -/
def containsDef : StmtList → Bool
  | .nil => false
  | .cons s rest => stmtHasDef s || containsDef rest
end

/-- `OccursIn f l`: the node `f` occurs somewhere in the statement forest
`l`, at any depth reachable by the visitor's traversal. -/
inductive OccursIn (f : Stmt) : StmtList → Prop where
  | here {rest : StmtList} : OccursIn f (.cons f rest)
  | there {s : Stmt} {rest : StmtList} : OccursIn f rest → OccursIn f (.cons s rest)
  | inside {s : Stmt} {rest : StmtList} : OccursIn f s.children → OccursIn f (.cons s rest)

/-- Specification-side description of splicing an ascending list of disjoint
spans into `source`: the characters of `source` from position `start` up to
the next span are copied verbatim, then that span's replacement text is
emitted, and so on; after the last span the rest of `source` is copied
verbatim.  Equality of the transform with this interleaving is exactly the
frame property: every character outside the kept spans is carried over
byte-identically from input to output. -/
def interleave (source : Text) : Nat → List Range → Text
  | start, [] => source.drop start
  | start, (s, e, repl) :: rest =>
    (source.drop start).take (s - start) ++ repl ++ interleave source e rest

/-! ### Lemmas on line splitting and the line-start table -/

theorem lineLenPy_pos (c : Char) (rest : List Char) : 1 ≤ lineLenPy (c :: rest) := by
  unfold lineLenPy
  split_ifs <;> omega

theorem lineLenNoFF_pos (c : Char) (rest : List Char) : 1 ≤ lineLenNoFF (c :: rest) := by
  unfold lineLenNoFF
  split_ifs <;> omega

theorem slkGo_flatten (ll : List Char → Nat) (hpos : ∀ c rest, 1 ≤ ll (c :: rest)) :
    ∀ (fuel : Nat) (l : List Char), l.length ≤ fuel → (slkGo ll fuel l).flatten = l := by
  intro fuel
  induction fuel with
  | zero =>
    intro l hl
    have : l = [] := List.eq_nil_of_length_eq_zero (Nat.le_zero.mp hl)
    subst this
    rfl
  | succ n ih =>
    intro l hl
    cases l with
    | nil => rfl
    | cons c rest =>
      simp only [slkGo, List.flatten_cons]
      rw [ih]
      · exact List.take_append_drop _ _
      · have h1 := hpos c rest
        simp only [List.length_drop, List.length_cons]
        simp only [List.length_cons] at hl
        omega

theorem splitlines_flatten (l : List Char) : (splitlinesKeepends l).flatten = l :=
  slkGo_flatten lineLenPy lineLenPy_pos l.length l le_rfl

theorem splitlinesNoFF_flatten (l : List Char) : (splitlinesNoFF l).flatten = l :=
  slkGo_flatten lineLenNoFF lineLenNoFF_pos l.length l le_rfl

/-- Partial sums of line lengths starting from `a`, excluding `a` itself. -/
def sums (a : Nat) : List Text → List Nat
  | [] => []
  | line :: rest => (a + line.length) :: sums (a + line.length) rest

theorem foldl_starts (lines : List Text) : ∀ (P : List Nat) (a : Nat),
    (lines.foldl
      (fun (p : List Nat × Nat) (line : Text) => (p.1 ++ [p.2 + line.length], p.2 + line.length))
      (P, a)).1 = P ++ sums a lines := by
  induction lines with
  | nil => intro P a; simp [sums]
  | cons line rest ih =>
    intro P a
    simp only [List.foldl_cons]
    rw [ih]
    simp [sums]

theorem _line_starts_eq (text : Text) :
    _line_starts text = 0 :: sums 0 (splitlinesKeepends text) := by
  unfold _line_starts
  rw [foldl_starts]
  rfl

theorem starts_get_succ : ∀ (L : List Text) (a i s : Nat) (li : Text),
    (a :: sums a L)[i]? = some s → L[i]? = some li →
    (a :: sums a L)[i + 1]? = some (s + li.length) := by
  intro L
  induction L with
  | nil =>
    intro a i s li h1 h2
    simp at h2
  | cons line rest ih =>
    intro a i s li h1 h2
    cases i with
    | zero =>
      simp only [List.getElem?_cons_zero, Option.some.injEq] at h1 h2
      subst h1
      subst h2
      simp [sums]
    | succ n =>
      simp only [List.getElem?_cons_succ] at h1 h2 ⊢
      rw [show sums a (line :: rest) = (a + line.length) :: sums (a + line.length) rest from rfl]
        at h1 ⊢
      exact ih (a + line.length) n s li h1 h2

theorem starts_getD : ∀ (L : List Text) (a i : Nat), i < L.length →
    (a :: sums a L).getD i 0 = a + ((L.take i).map List.length).sum := by
  intro L
  induction L with
  | nil =>
    intro a i hi
    simp at hi
  | cons line rest ih =>
    intro a i hi
    cases i with
    | zero => simp
    | succ n =>
      have hn : n < rest.length := by simpa using hi
      have := ih (a + line.length) n hn
      simp only [List.getD_eq_getElem?_getD, List.getElem?_cons_succ] at this ⊢
      rw [show sums a (line :: rest) = (a + line.length) :: sums (a + line.length) rest from rfl]
      rw [this]
      simp [List.take_succ_cons]
      omega

theorem flatten_get : ∀ (L : List Text) (i : Nat) (ln : Text) (c : Nat),
    L[i]? = some ln → c < ln.length →
    (L.flatten)[((L.take i).map List.length).sum + c]? = ln[c]? := by
  intro L
  induction L with
  | nil =>
    intro i ln c h hc
    simp at h
  | cons hd rest ih =>
    intro i ln c h hc
    cases i with
    | zero =>
      simp only [List.getElem?_cons_zero, Option.some.injEq] at h
      subst h
      simp only [List.take_zero, List.map_nil, List.sum_nil, Nat.zero_add, List.flatten_cons]
      exact List.getElem?_append_left hc
    | succ n =>
      simp only [List.getElem?_cons_succ] at h
      simp only [List.take_succ_cons, List.map_cons, List.sum_cons, List.flatten_cons]
      have hle : hd.length ≤ hd.length + (((rest.take n).map List.length).sum + c) := by omega
      rw [Nat.add_assoc, List.getElem?_append_right hle]
      have : hd.length + (((rest.take n).map List.length).sum + c) - hd.length
          = ((rest.take n).map List.length).sum + c := by omega
      rw [this]
      exact ih n ln c h hc

theorem sums_length : ∀ (L : List Text) (a : Nat), (sums a L).length = L.length := by
  intro L
  induction L with
  | nil => intro a; rfl
  | cons hd rest ih => intro a; simp [sums, ih]

/-- The table built by `_line_starts` is internally consistent with the
`str.splitlines` decomposition it is computed from: entry 0 is 0, each
subsequent entry is the previous entry plus that `splitlines` line's length,
and `line_starts[lineno - 1] + col` addresses the character at column `col`
of the `lineno`-th `splitlines` line.  The parser numbers lines differently
on texts containing the extra `str.splitlines` boundary characters, so this
does not make the table correct for parser positions (see the form-feed
theorems below). -/
theorem line_start_table_splitlines (text : Text) :
    ((_line_starts text).length = (splitlinesKeepends text).length + 1
      ∧ (_line_starts text)[0]? = some 0)
    ∧ (∀ i s li, (_line_starts text)[i]? = some s →
        (splitlinesKeepends text)[i]? = some li →
        (_line_starts text)[i + 1]? = some (s + li.length))
    ∧ (∀ lineno col ln, 1 ≤ lineno →
        (splitlinesKeepends text)[lineno - 1]? = some ln → col < ln.length →
        text[_abs_index (_line_starts text) lineno col]? = ln[col]?) := by
  refine ⟨⟨?_, ?_⟩, ?_, ?_⟩
  · rw [_line_starts_eq]
    simp [sums_length]
  · rw [_line_starts_eq]
    simp
  · intro i s li h1 h2
    rw [_line_starts_eq] at h1 ⊢
    exact starts_get_succ _ 0 i s li h1 h2
  · intro lineno col ln h1 h2 h3
    have hi : lineno - 1 < (splitlinesKeepends text).length := by
      by_contra hcon
      rw [List.getElem?_eq_none (Nat.le_of_not_lt hcon)] at h2
      exact Option.noConfusion h2
    have habs : _abs_index (_line_starts text) lineno col
        = (((splitlinesKeepends text).take (lineno - 1)).map List.length).sum + col := by
      unfold _abs_index
      rw [_line_starts_eq, starts_getD _ 0 _ hi]
      omega
    have key := flatten_get (splitlinesKeepends text) (lineno - 1) ln col h2 h3
    rw [splitlines_flatten] at key
    rw [habs]
    exact key

theorem parser_line_starts_eq (text : Text) :
    parser_line_starts text = 0 :: sums 0 (splitlinesNoFF text) := by
  unfold parser_line_starts
  rw [foldl_starts]
  rfl

/-- The parser-side table `parser_line_starts` addresses parser-reported
positions correctly: `parser_line_starts[lineno - 1] + col` is the absolute
index of the character at column `col` of the `lineno`-th parser line
(the `splitlinesNoFF` decomposition the parser's line numbers refer to).
This is the conversion the app's `_line_starts` was meant to provide. -/
theorem parser_line_start_table (text : Text) :
    ∀ lineno col ln, 1 ≤ lineno →
      (splitlinesNoFF text)[lineno - 1]? = some ln → col < ln.length →
      text[_abs_index (parser_line_starts text) lineno col]? = ln[col]? := by
  intro lineno col ln h1 h2 h3
  have hi : lineno - 1 < (splitlinesNoFF text).length := by
    by_contra hcon
    rw [List.getElem?_eq_none (Nat.le_of_not_lt hcon)] at h2
    exact Option.noConfusion h2
  have habs : _abs_index (parser_line_starts text) lineno col
      = (((splitlinesNoFF text).take (lineno - 1)).map List.length).sum + col := by
    unfold _abs_index
    rw [parser_line_starts_eq, starts_getD _ 0 _ hi]
    omega
  have key := flatten_get (splitlinesNoFF text) (lineno - 1) ln col h2 h3
  rw [splitlinesNoFF_flatten] at key
  rw [habs]
  exact key

/-! ### Lemmas on range deduplication -/

/-- Range `a` lies fully inside range `b` (offset intervals, end-exclusive). -/
def nestedIn (a b : Range) : Prop := b.1 ≤ a.1 ∧ a.2.1 ≤ b.2.1

/-- Ranges `a` and `b` cover exactly the same offsets. -/
def sameSpan (a b : Range) : Prop := a.1 = b.1 ∧ a.2.1 = b.2.1

/-- The offset intervals of `a` and `b` do not overlap. -/
def disjointR (a b : Range) : Prop := a.2.1 ≤ b.1 ∨ b.2.1 ≤ a.1

instance (a b : Range) : Decidable (nestedIn a b) := by unfold nestedIn; infer_instance

instance (a b : Range) : Decidable (sameSpan a b) := by unfold sameSpan; infer_instance

instance (a b : Range) : Decidable (disjointR a b) := by unfold disjointR; infer_instance

theorem mem_dedupeGo : ∀ (l : List Range) (ce : Int) (x : Range),
    x ∈ dedupeGo ce l → x ∈ l := by
  intro l
  induction l with
  | nil =>
    intro ce x hx
    simp [dedupeGo] at hx
  | cons h t ih =>
    intro ce x hx
    obtain ⟨s, e, rep⟩ := h
    by_cases hc : ce ≤ (s : Int)
    · rw [dedupeGo, if_pos hc] at hx
      rcases List.mem_cons.mp hx with rfl | hx'
      · exact List.mem_cons_self _ _
      · exact List.mem_cons_of_mem _ (ih _ _ hx')
    · rw [dedupeGo, if_neg hc] at hx
      exact List.mem_cons_of_mem _ (ih _ _ hx)

theorem keyLE_le {a b : Range} (h : keyLE a b) : a.1 ≤ b.1 := by
  unfold keyLE at h
  omega

theorem dedupeGo_start_ge : ∀ (l : List Range) (ce : Int) (x : Range),
    l.Pairwise keyLE → x ∈ dedupeGo ce l → ce ≤ (x.1 : Int) := by
  intro l
  induction l with
  | nil =>
    intro ce x _ hx
    simp [dedupeGo] at hx
  | cons h t ih =>
    intro ce x hp hx
    obtain ⟨hhead, htail⟩ := List.pairwise_cons.mp hp
    obtain ⟨s, e, rep⟩ := h
    by_cases hc : ce ≤ (s : Int)
    · rw [dedupeGo, if_pos hc] at hx
      rcases List.mem_cons.mp hx with rfl | hx'
      · exact hc
      · have hxt : x ∈ t := mem_dedupeGo _ _ _ hx'
        have := keyLE_le (hhead x hxt)
        simp only at this
        omega
    · rw [dedupeGo, if_neg hc] at hx
      exact ih _ _ htail hx

theorem dedupeGo_pairwise : ∀ (l : List Range) (ce : Int),
    l.Pairwise keyLE → (dedupeGo ce l).Pairwise (fun a b => a.2.1 ≤ b.1) := by
  intro l
  induction l with
  | nil =>
    intro ce _
    simp [dedupeGo]
  | cons h t ih =>
    intro ce hp
    obtain ⟨hhead, htail⟩ := List.pairwise_cons.mp hp
    obtain ⟨s, e, rep⟩ := h
    by_cases hc : ce ≤ (s : Int)
    · rw [dedupeGo, if_pos hc]
      refine List.pairwise_cons.mpr ⟨?_, ih _ htail⟩
      intro x hx
      have := dedupeGo_start_ge t (e : Int) x htail hx
      simp only
      omega
    · rw [dedupeGo, if_neg hc]
      exact ih _ htail

theorem sorted_insertion (ranges : List Range) :
    (ranges.insertionSort keyLE).Pairwise keyLE :=
  List.sorted_insertionSort keyLE ranges

theorem mem_dedupe {ranges : List Range} {x : Range}
    (hx : x ∈ _dedupe_overlapping_ranges ranges) : x ∈ ranges :=
  (List.perm_insertionSort keyLE ranges).mem_iff.mp (mem_dedupeGo _ _ _ hx)

theorem dedupe_pairwise (ranges : List Range) :
    (_dedupe_overlapping_ranges ranges).Pairwise (fun a b => a.2.1 ≤ b.1) :=
  dedupeGo_pairwise _ _ (sorted_insertion ranges)

theorem dedupe_disjoint_of_ne {ranges : List Range} {x y : Range}
    (hx : x ∈ _dedupe_overlapping_ranges ranges) (hy : y ∈ _dedupe_overlapping_ranges ranges)
    (hne : x ≠ y) : disjointR x y := by
  have hp : (_dedupe_overlapping_ranges ranges).Pairwise (fun a b => disjointR a b) :=
    (dedupe_pairwise ranges).imp (fun h => Or.inl h)
  have hsymm : Symmetric (fun a b : Range => disjointR a b) := by
    intro a b h
    unfold disjointR at h ⊢
    omega
  exact hp.forall hsymm hx hy hne

theorem dedupeGo_complete : ∀ (l : List Range) (ce : Int) (r : Range),
    r ∈ l → l.Pairwise keyLE →
    (∀ x ∈ l, x.1 < x.2.1) →
    (∀ a ∈ l, ∀ b ∈ l, nestedIn a b ∨ nestedIn b a ∨ disjointR a b) →
    (∀ k ∈ l, nestedIn r k → sameSpan r k) →
    ce ≤ (r.1 : Int) →
    ∃ x ∈ dedupeGo ce l, sameSpan x r := by
  intro l
  induction l with
  | nil =>
    intro ce r hr
    simp at hr
  | cons h t ih =>
    intro ce r hr hsort hne hlam houter hce
    obtain ⟨hhead, htail⟩ := List.pairwise_cons.mp hsort
    obtain ⟨s, e, rep⟩ := h
    rcases List.mem_cons.mp hr with rfl | hrt
    · rw [dedupeGo, if_pos hce]
      exact ⟨_, List.mem_cons_self _ _, rfl, rfl⟩
    · have hkey : keyLE (s, e, rep) r := hhead r hrt
      have hr_ne : r.1 < r.2.1 := hne r (List.mem_cons_of_mem _ hrt)
      have hcase : sameSpan (s, e, rep) r ∨ e ≤ r.1 := by
        rcases hlam (s, e, rep) (List.mem_cons_self _ _) r (List.mem_cons_of_mem _ hrt) with
          hn | hn | hd
        · unfold nestedIn at hn
          unfold keyLE at hkey
          unfold sameSpan
          simp only at hn hkey ⊢
          omega
        · have := houter (s, e, rep) (List.mem_cons_self _ _) hn
          unfold sameSpan at this ⊢
          omega
        · unfold disjointR at hd
          have := keyLE_le hkey
          simp only at hd this
          omega
      by_cases hc : ce ≤ (s : Int)
      · rw [dedupeGo, if_pos hc]
        rcases hcase with hsame | hle
        · exact ⟨(s, e, rep), List.mem_cons_self _ _, hsame⟩
        · have hres := ih (e : Int) r hrt htail
            (fun x hx => hne x (List.mem_cons_of_mem _ hx))
            (fun a ha b hb =>
              hlam a (List.mem_cons_of_mem _ ha) b (List.mem_cons_of_mem _ hb))
            (fun k hk => houter k (List.mem_cons_of_mem _ hk))
            (by exact_mod_cast hle)
          obtain ⟨x, hx1, hx2⟩ := hres
          exact ⟨x, List.mem_cons_of_mem _ hx1, hx2⟩
      · rw [dedupeGo, if_neg hc]
        exact ih ce r hrt htail
          (fun x hx => hne x (List.mem_cons_of_mem _ hx))
          (fun a ha b hb =>
            hlam a (List.mem_cons_of_mem _ ha) b (List.mem_cons_of_mem _ hb))
          (fun k hk => houter k (List.mem_cons_of_mem _ hk))
          hce

/-- The number of offsets a range covers. -/
def width (r : Range) : Nat := r.2.1 - r.1

theorem width_le_bound : ∀ (L : List Range) (x : Range), x ∈ L →
    width x ≤ (L.map width).foldr max 0 := by
  intro L
  induction L with
  | nil =>
    intro x hx
    simp at hx
  | cons h t ih =>
    intro x hx
    rcases List.mem_cons.mp hx with rfl | hx'
    · simp only [List.map_cons, List.foldr_cons]
      omega
    · have := ih x hx'
      simp only [List.map_cons, List.foldr_cons]
      omega

theorem exists_outermost_aux (L : List Range) (hne : ∀ x ∈ L, x.1 < x.2.1) (r : Range) :
    ∀ (n : Nat) (c : Range), c ∈ L → nestedIn r c →
    (L.map width).foldr max 0 - width c ≤ n →
    ∃ m ∈ L, nestedIn r m ∧ ∀ k ∈ L, nestedIn m k → sameSpan m k := by
  intro n
  induction n with
  | zero =>
    intro c hc hrc hb
    refine ⟨c, hc, hrc, ?_⟩
    intro k hk hck
    have hkb := width_le_bound L k hk
    have hcne := hne c hc
    unfold nestedIn at hck
    unfold sameSpan
    unfold width at hkb hb
    omega
  | succ n ihn =>
    intro c hc hrc hb
    by_cases hmax : ∀ k ∈ L, nestedIn c k → sameSpan c k
    · exact ⟨c, hc, hrc, hmax⟩
    · push_neg at hmax
      obtain ⟨k, hk, hck, hnot⟩ := hmax
      have hcne := hne c hc
      have hwlt : width c < width k := by
        unfold nestedIn at hck
        unfold sameSpan at hnot
        unfold width
        omega
      refine ihn k hk ?_ ?_
      · unfold nestedIn at hrc hck ⊢
        omega
      · have hkb := width_le_bound L k hk
        omega

theorem exists_outermost (L : List Range) (hne : ∀ x ∈ L, x.1 < x.2.1) (r : Range)
    (hr : r ∈ L) :
    ∃ m ∈ L, nestedIn r m ∧ ∀ k ∈ L, nestedIn m k → sameSpan m k := by
  refine exists_outermost_aux L hne r ((L.map width).foldr max 0) r hr ?_ ?_
  · unfold nestedIn
    omega
  · omega

/-- C6 counterexample: on the input list
`[(0, 10), (10, 10), (3, 12)]` the deduplication keeps `(10, 10)` although
it is fully nested inside the kept range `(0, 10)` (its start and end both
lie between 0 and 10), and it drops `(3, 12)` although `(3, 12)` is
outermost (it is nested inside no other input range), so neither
"every range fully nested inside a kept range is discarded" nor
"for each nesting chain exactly the outermost span survives" holds for
arbitrary input lists. -/
theorem c6_dedupe_counterexample :
    _dedupe_overlapping_ranges [(0, 10, []), (10, 10, []), (3, 12, [])]
        = [(0, 10, []), (10, 10, [])]
    ∧ nestedIn (10, 10, []) (0, 10, [])
    ∧ ¬ sameSpan (10, 10, []) (0, 10, [])
    ∧ (10, 10, ([] : Text)) ∈ _dedupe_overlapping_ranges [(0, 10, []), (10, 10, []), (3, 12, [])]
    ∧ (∀ k ∈ [(0, 10, ([] : Text)), (10, 10, []), (3, 12, [])],
        nestedIn (3, 12, []) k → sameSpan (3, 12, []) k)
    ∧ ¬ ∃ x ∈ _dedupe_overlapping_ranges [(0, 10, []), (10, 10, []), (3, 12, [])],
        sameSpan x (3, 12, []) := by
  decide

/-- C6 (amended): for every input list of nonempty replacement ranges
(`start < end`) in which any two ranges are nested or disjoint -- as the
function-body spans produced by the visitor are -- the deduplication returns
a list in which no two kept ranges overlap, every range strictly nested
inside a kept range is discarded, and for each nesting chain exactly the
outermost span survives (every outermost range survives, and every kept
range is outermost); this is achieved by sorting by (startOffset ascending,
endOffset descending) and keeping a span only if its start is at least the
end of the last kept span. -/
theorem c6_dedupe_invariants (ranges : List Range)
    (hne : ∀ x ∈ ranges, x.1 < x.2.1)
    (hlam : ∀ a ∈ ranges, ∀ b ∈ ranges, nestedIn a b ∨ nestedIn b a ∨ disjointR a b) :
    (_dedupe_overlapping_ranges ranges).Pairwise (fun a b => disjointR a b)
    ∧ (∀ x ∈ _dedupe_overlapping_ranges ranges, ∀ k ∈ ranges, nestedIn x k → sameSpan x k)
    ∧ (∀ r ∈ ranges, ∀ k ∈ _dedupe_overlapping_ranges ranges, nestedIn r k →
        ¬ sameSpan r k → r ∉ _dedupe_overlapping_ranges ranges)
    ∧ (∀ r ∈ ranges, (∀ k ∈ ranges, nestedIn r k → sameSpan r k) →
        ∃ x ∈ _dedupe_overlapping_ranges ranges, sameSpan x r)
    ∧ _dedupe_overlapping_ranges ranges = dedupeGo (-1) (ranges.insertionSort keyLE) := by
  have hperm := List.perm_insertionSort keyLE ranges
  have hne' : ∀ x ∈ ranges.insertionSort keyLE, x.1 < x.2.1 := fun x hx =>
    hne x (hperm.mem_iff.mp hx)
  have hlam' : ∀ a ∈ ranges.insertionSort keyLE, ∀ b ∈ ranges.insertionSort keyLE,
      nestedIn a b ∨ nestedIn b a ∨ disjointR a b := fun a ha b hb =>
    hlam a (hperm.mem_iff.mp ha) b (hperm.mem_iff.mp hb)
  have hcomplete : ∀ r ∈ ranges, (∀ k ∈ ranges, nestedIn r k → sameSpan r k) →
      ∃ x ∈ _dedupe_overlapping_ranges ranges, sameSpan x r := by
    intro r hr houter
    refine dedupeGo_complete _ (-1) r (hperm.mem_iff.mpr hr) (sorted_insertion ranges)
      hne' hlam' (fun k hk => houter k (hperm.mem_iff.mp hk)) ?_
    omega
  have houtermost : ∀ x ∈ _dedupe_overlapping_ranges ranges, ∀ k ∈ ranges,
      nestedIn x k → sameSpan x k := by
    intro x hx k hk hxk
    by_contra hnot
    obtain ⟨m, hm, hkm, hmax⟩ := exists_outermost ranges hne k hk
    obtain ⟨y, hy, hym⟩ := hcomplete m hm hmax
    have hxy : nestedIn x y := by
      unfold nestedIn at hxk hkm ⊢
      unfold sameSpan at hym
      omega
    have hxney : x ≠ y := by
      intro heq
      subst heq
      unfold nestedIn at hxk hkm hxy
      unfold sameSpan at hym hnot
      omega
    have hdisj := dedupe_disjoint_of_ne hx hy hxney
    have hxne := hne x (mem_dedupe hx)
    unfold disjointR at hdisj
    unfold nestedIn at hxy
    omega
  refine ⟨(dedupe_pairwise ranges).imp (fun h => Or.inl h), houtermost, ?_, hcomplete, rfl⟩
  intro r _ k hk hrk hnot hrkept
  exact hnot (houtermost r hrkept k (mem_dedupe hk) hrk)

/-- Witness for C6 (amended) on the concrete input `[(1, 3), (4, 6)]`. -/
theorem c6_dedupe_invariants_witness :
    ((1, 3, ([] : Text)) ∈ ([(1, 3, []), (4, 6, [])] : List Range) → (1 : Nat) < 3)
    ∧ (_dedupe_overlapping_ranges [(1, 3, []), (4, 6, [])]).Pairwise
        (fun a b => disjointR a b)
    ∧ (∀ x ∈ _dedupe_overlapping_ranges [(1, 3, []), (4, 6, [])],
        ∀ k ∈ ([(1, 3, []), (4, 6, [])] : List Range), nestedIn x k → sameSpan x k) :=
  ⟨fun _ => by decide,
    (c6_dedupe_invariants [(1, 3, []), (4, 6, [])] (by decide) (by decide)).1,
    (c6_dedupe_invariants [(1, 3, []), (4, 6, [])] (by decide) (by decide)).2.1⟩

/-! ### Lemmas on span splicing -/

theorem interleave_take (src : Text) (l : List Range) (n : Nat)
    (hb : ∀ x ∈ l, n ≤ x.1 ∧ x.1 ≤ x.2.1 ∧ x.2.1 ≤ src.length) :
    (interleave src 0 l).take n = src.take n := by
  cases l with
  | nil =>
    rw [show interleave src 0 [] = src.drop 0 from rfl, List.drop_zero]
  | cons h t =>
    obtain ⟨s, e, rep⟩ := h
    obtain ⟨hns, hse, hlen⟩ := hb (s, e, rep) (List.mem_cons_self _ _)
    rw [show interleave src 0 ((s, e, rep) :: t)
        = (src.drop 0).take (s - 0) ++ rep ++ interleave src e t from rfl]
    rw [List.drop_zero, Nat.sub_zero, List.append_assoc]
    have hlt : n ≤ (src.take s).length := by
      rw [List.length_take]
      omega
    rw [List.take_append_of_le_length hlt, List.take_take]
    congr 1
    omega

theorem interleave_drop (src : Text) (l : List Range) (n : Nat)
    (hb : ∀ x ∈ l, n ≤ x.1 ∧ x.1 ≤ x.2.1 ∧ x.2.1 ≤ src.length) :
    (interleave src 0 l).drop n = interleave src n l := by
  cases l with
  | nil =>
    rw [show interleave src 0 [] = src.drop 0 from rfl, List.drop_zero]
    rfl
  | cons h t =>
    obtain ⟨s, e, rep⟩ := h
    obtain ⟨hns, hse, hlen⟩ := hb (s, e, rep) (List.mem_cons_self _ _)
    rw [show interleave src 0 ((s, e, rep) :: t)
        = (src.drop 0).take (s - 0) ++ rep ++ interleave src e t from rfl]
    rw [show interleave src n ((s, e, rep) :: t)
        = (src.drop n).take (s - n) ++ rep ++ interleave src e t from rfl]
    rw [List.drop_zero, Nat.sub_zero, List.append_assoc]
    have hlt : n ≤ (src.take s).length := by
      rw [List.length_take]
      omega
    rw [List.drop_append_of_le_length hlt, List.drop_take]
    rw [List.append_assoc]

theorem foldl_splice_eq_interleave (src : Text) : ∀ (l : List Range),
    l.Pairwise (fun a b => a.2.1 ≤ b.1) →
    (∀ x ∈ l, x.1 ≤ x.2.1 ∧ x.2.1 ≤ src.length) →
    l.reverse.foldl spliceApply src = interleave src 0 l := by
  intro l
  induction l with
  | nil =>
    intro _ _
    rw [show interleave src 0 [] = src.drop 0 from rfl, List.drop_zero]
    rfl
  | cons h t ih =>
    intro hp hb
    obtain ⟨hhead, htail⟩ := List.pairwise_cons.mp hp
    obtain ⟨s, e, rep⟩ := h
    obtain ⟨hse, hlen⟩ := hb (s, e, rep) (List.mem_cons_self _ _)
    have hbt : ∀ x ∈ t, x.1 ≤ x.2.1 ∧ x.2.1 ≤ src.length :=
      fun x hx => hb x (List.mem_cons_of_mem _ hx)
    rw [List.reverse_cons, List.foldl_append]
    rw [ih htail hbt]
    simp only [List.foldl_cons, List.foldl_nil]
    unfold spliceApply
    have hse' : s ≤ e := hse
    have htake : (interleave src 0 t).take s = src.take s := by
      refine interleave_take src t s (fun x hx => ?_)
      have he : e ≤ x.1 := hhead x hx
      obtain ⟨h1, h2⟩ := hbt x hx
      exact ⟨by omega, h1, h2⟩
    have hdrop : (interleave src 0 t).drop e = interleave src e t := by
      refine interleave_drop src t e (fun x hx => ?_)
      have he : e ≤ x.1 := hhead x hx
      obtain ⟨h1, h2⟩ := hbt x hx
      exact ⟨by omega, h1, h2⟩
    rw [htake, hdrop]
    rw [show interleave src 0 ((s, e, rep) :: t)
        = (src.drop 0).take (s - 0) ++ rep ++ interleave src e t from rfl]
    rw [List.drop_zero, Nat.sub_zero]

instance : IsAntisymm Range (fun a b : Range => b.1 < a.1) :=
  ⟨fun _ _ h1 h2 => absurd h2 (Nat.lt_asymm h1)⟩

theorem insertionSort_desc_eq_reverse (kept : List Range)
    (hstrict : kept.Pairwise (fun a b => a.1 < b.1)) :
    kept.insertionSort descLE = kept.reverse := by
  have hperm : (kept.insertionSort descLE).Perm kept := List.perm_insertionSort descLE kept
  have hsorted : (kept.insertionSort descLE).Pairwise descLE :=
    List.sorted_insertionSort descLE kept
  have hnodup : (kept.map Prod.fst).Nodup :=
    (List.pairwise_map.mpr hstrict).imp (fun h => Nat.ne_of_lt h)
  have hnodup' : ((kept.insertionSort descLE).map Prod.fst).Nodup :=
    ((hperm.map Prod.fst).nodup_iff).mpr hnodup
  have hne : (kept.insertionSort descLE).Pairwise (fun a b => a.1 ≠ b.1) :=
    List.pairwise_map.mp hnodup'
  have hdesc : (kept.insertionSort descLE).Pairwise (fun a b : Range => b.1 < a.1) := by
    refine (hsorted.and hne).imp ?_
    intro a b hab
    obtain ⟨h1, h2⟩ := hab
    unfold descLE at h1
    omega
  have hrev : kept.reverse.Pairwise (fun a b : Range => b.1 < a.1) :=
    List.pairwise_reverse.mpr hstrict
  exact List.eq_of_perm_of_sorted (hperm.trans (List.reverse_perm kept).symm) hdesc hrev

theorem getLast?_drop {α : Type} : ∀ (l : List α) (n : Nat), n < l.length →
    (l.drop n).getLast? = l.getLast? := by
  intro l
  induction l with
  | nil =>
    intro n h
    simp at h
  | cons c rest ih =>
    intro n h
    cases n with
    | zero => rfl
    | succ m =>
      have hm : m < rest.length := by simpa using h
      have hrest : rest ≠ [] := by
        intro he
        rw [he] at hm
        simp at hm
      rw [List.drop_succ_cons, ih m hm]
      rw [show (c :: rest) = [c] ++ rest from rfl, List.getLast?_append]
      cases hre : rest.getLast? with
      | none => exact absurd (List.getLast?_eq_none_iff.mp hre) hrest
      | some a => rfl

theorem interleave_ends (src : Text) : ∀ (l : List Range) (n : Nat),
    n < src.length → (∀ x ∈ l, x.2.1 < src.length) →
    (interleave src n l).getLast? = src.getLast? := by
  intro l
  induction l with
  | nil =>
    intro n hn _
    exact getLast?_drop src n hn
  | cons h t ih =>
    intro n hn hb
    obtain ⟨s, e, rep⟩ := h
    have he : e < src.length := (hb (s, e, rep) (List.mem_cons_self _ _))
    have hI := ih e he (fun x hx => hb x (List.mem_cons_of_mem _ hx))
    rw [show interleave src n ((s, e, rep) :: t)
        = (src.drop n).take (s - n) ++ rep ++ interleave src e t from rfl]
    have hsrc_ne : src ≠ [] := by
      intro hsrc
      rw [hsrc] at hn
      simp at hn
    cases hlast : src.getLast? with
    | none => exact absurd (List.getLast?_eq_none_iff.mp hlast) hsrc_ne
    | some a =>
      rw [hlast] at hI
      rw [List.append_assoc, List.getLast?_append, List.getLast?_append, hI]
      rfl

/-- C5: for every input and parse tree whose collected spans are nonempty,
lie inside the text, and end before a trailing newline when there is one
(all guaranteed for real parse trees), the splice output is exactly the
input with the kept (outermost) spans' slices replaced by their replacement
texts: the output is the interleaving that copies every character outside
the kept spans verbatim, so all comments, whitespace, signatures, decorators
and top-level text outside the replaced body spans are byte-identical
between input and output. -/
theorem c5_frame_preservation (source : Text) (tree : StmtList)
    (hb : ∀ sp ∈ visitList source tree, sp.1 < sp.2.1 ∧ sp.2.1 ≤ source.length
        ∧ (source.getLast? = some '\n' → sp.2.1 < source.length)) :
    transform_core source tree
      = interleave source 0 (_dedupe_overlapping_ranges (visitList source tree)) := by
  by_cases hrep : visitList source tree = []
  · rw [show transform_core source tree = source from by
      unfold transform_core
      rw [if_pos hrep]]
    rw [hrep]
    rw [show _dedupe_overlapping_ranges [] = [] from rfl]
    rw [show interleave source 0 [] = source.drop 0 from rfl, List.drop_zero]
  · have hkmem : ∀ x ∈ _dedupe_overlapping_ranges (visitList source tree),
        x ∈ visitList source tree := fun x hx => mem_dedupe hx
    have hpair := dedupe_pairwise (visitList source tree)
    have hstrict : (_dedupe_overlapping_ranges (visitList source tree)).Pairwise
        (fun a b => a.1 < b.1) := by
      refine hpair.imp_of_mem ?_
      intro a b ha _ hab
      have := (hb a (hkmem a ha)).1
      omega
    have hsplice : transform_spliced source tree
        = interleave source 0 (_dedupe_overlapping_ranges (visitList source tree)) := by
      show ((_dedupe_overlapping_ranges (visitList source tree)).insertionSort descLE).foldl
          spliceApply source = _
      rw [insertionSort_desc_eq_reverse _ hstrict]
      refine foldl_splice_eq_interleave source _ hpair ?_
      intro x hx
      have h1 := (hb x (hkmem x hx)).1
      have h2 := (hb x (hkmem x hx)).2.1
      exact ⟨by omega, h2⟩
    unfold transform_core
    rw [if_neg hrep]
    by_cases hnl : source.getLast? = some '\n'
    · have hlen : 0 < source.length := by
        cases source with
        | nil => simp at hnl
        | cons c r => simp
      have hNlast : (transform_spliced source tree).getLast? = some '\n' := by
        rw [hsplice]
        rw [interleave_ends source _ 0 hlen
          (fun x hx => (hb x (hkmem x hx)).2.2 hnl)]
        exact hnl
      rw [if_neg (by
        intro hand
        exact hand.2 hNlast)]
      exact hsplice
    · rw [if_neg (by
        intro hand
        exact hnl hand.1)]
      exact hsplice

/-- Witness for C5 at a one-function input: the output is the interleaving
of the untouched text around the single kept span. -/
theorem c5_frame_preservation_witness :
    transform_core "def g():\n    x = 1\n".toList
        (.ofList [.functionDef "g" (.ofList [.otherSimple ⟨2, 4, 2, 9⟩]) ⟨1, 0, 2, 9⟩])
      = interleave "def g():\n    x = 1\n".toList 0
          (_dedupe_overlapping_ranges (visitList "def g():\n    x = 1\n".toList
            (.ofList [.functionDef "g" (.ofList [.otherSimple ⟨2, 4, 2, 9⟩]) ⟨1, 0, 2, 9⟩]))) :=
  c5_frame_preservation "def g():\n    x = 1\n".toList
    (.ofList [.functionDef "g" (.ofList [.otherSimple ⟨2, 4, 2, 9⟩]) ⟨1, 0, 2, 9⟩])
    (by decide)

/-! ### Lemmas on the visitor and the per-function replacements -/

theorem visit_sub_children (source : Text) (s' : Stmt) (x : Range)
    (hx : x ∈ visitList source s'.children) : x ∈ visit source s' := by
  cases s' with
  | functionDef n body p => exact List.mem_append_right _ hx
  | asyncFunctionDef n body p => exact List.mem_append_right _ hx
  | classDef n body p => exact hx
  | otherCompound cs p => exact hx
  | exprStr v p => simp [Stmt.children, visitList] at hx
  | exprOther p => simp [Stmt.children, visitList] at hx
  | otherSimple p => simp [Stmt.children, visitList] at hx

theorem occurs_visit_mem (source : Text) (f : Stmt) (l : StmtList) (h : OccursIn f l) :
    ∀ x ∈ visit source f, x ∈ visitList source l := by
  induction h with
  | here => exact fun x hx => List.mem_append_left _ hx
  | there _ ih => exact fun x hx => List.mem_append_right _ (ih x hx)
  | inside _ ih =>
    exact fun x hx => List.mem_append_left _ (visit_sub_children source _ x (ih x hx))

theorem visit_funcdef (source : Text) (f : Stmt) (hf : isFuncDef f = true) :
    visit source f = _handle source f.children ++ visitList source f.children := by
  cases f with
  | functionDef n body p => rfl
  | asyncFunctionDef n body p => rfl
  | classDef n body p => simp [isFuncDef] at hf
  | exprStr v p => simp [isFuncDef] at hf
  | exprOther p => simp [isFuncDef] at hf
  | otherSimple p => simp [isFuncDef] at hf
  | otherCompound cs p => simp [isFuncDef] at hf

theorem _handle_pass (source : Text) (first : Stmt) (rest : StmtList)
    (hnd : _is_docstring_stmt first = false) :
    _handle source (.cons first rest)
      = [(_abs_index (_line_starts source) first.pos.lineno first.pos.colOffset,
          _abs_index (_line_starts source) (lastStmt first rest).pos.endLineno
            (lastStmt first rest).pos.endColOffset,
          ((splitlinesKeepends source).getD (first.pos.lineno - 1) []).take
              first.pos.colOffset
            ++ "pass".toList)] := by
  simp [_handle, hnd]

theorem _handle_doc (source : Text) (first : Stmt) (rest : StmtList)
    (hd : _is_docstring_stmt first = true) :
    _handle source (.cons first rest)
      = [(_abs_index (_line_starts source) first.pos.lineno first.pos.colOffset,
          _abs_index (_line_starts source) (lastStmt first rest).pos.endLineno
            (lastStmt first rest).pos.endColOffset,
          (source.take (_abs_index (parser_line_starts source) first.pos.endLineno
              first.pos.endColOffset)).drop
            (_abs_index (parser_line_starts source) first.pos.lineno
              first.pos.colOffset))] := by
  simp [_handle, hd, get_source_segment]

theorem splice_ends (src : Text) (s e : Nat) (rep : Text) (he : e < src.length)
    (hnl : src.getLast? = some '\n') :
    (src.take s ++ rep ++ src.drop e).getLast? = some '\n' := by
  rw [List.append_assoc, List.getLast?_append, List.getLast?_append]
  rw [getLast?_drop src e he, hnl]
  rfl

/-- End-to-end computation of the transform when exactly one replacement is
collected (shared by several claims below). -/
theorem transform_singleton (source : Text) (tree : StmtList) (s e : Nat) (rep : Text)
    (hvis : visitList source tree = [(s, e, rep)])
    (hnl : source.getLast? = some '\n' → e < source.length) :
    transform_core source tree = source.take s ++ rep ++ source.drop e := by
  have hkept : _dedupe_overlapping_ranges (visitList source tree) = [(s, e, rep)] := by
    rw [hvis]
    show dedupeGo (-1) ([(s, e, rep)].insertionSort keyLE) = [(s, e, rep)]
    rw [show [(s, e, rep)].insertionSort keyLE = [(s, e, rep)] from rfl]
    show (if (-1 : Int) ≤ (s : Int) then (s, e, rep) :: dedupeGo (e : Int) [] else
      dedupeGo (-1) []) = [(s, e, rep)]
    rw [if_pos (by omega)]
    rfl
  have hspliced : transform_spliced source tree = source.take s ++ rep ++ source.drop e := by
    show ((_dedupe_overlapping_ranges (visitList source tree)).insertionSort descLE).foldl
        spliceApply source = _
    rw [hkept]
    show spliceApply source (s, e, rep) = _
    rfl
  unfold transform_core
  rw [if_neg (by rw [hvis]; exact fun h => List.noConfusion h)]
  by_cases hend : source.getLast? = some '\n'
  · rw [if_neg (by
      intro hand
      refine hand.2 ?_
      rw [hspliced]
      exact splice_ends source s e rep (hnl hend) hend)]
    exact hspliced
  · rw [if_neg (by
      intro hand
      exact hend hand.1)]
    exact hspliced

/-- For every function or method node whose first body statement is not a
string-literal docstring, the visitor queues exactly one replacement over
the program's own computed offsets (`_line_starts`-based, from the first to
the last body statement's reported position) whose text is the program's
`lines[lineno - 1][:col_offset]` indentation followed by `pass`; and for a
module holding one such function (with no nested definitions) the transform
output is the input with exactly that span so replaced.  These computed
offsets coincide with the statements' true positions only on texts free of
the extra `str.splitlines` boundary characters; see
`c1_formfeed_misplacement` for the divergence. -/
theorem visitor_pass_replacement :
    (∀ (source : Text) (tree : StmtList) (f first : Stmt) (rest : StmtList),
      OccursIn f tree → isFuncDef f = true → f.children = .cons first rest →
      _is_docstring_stmt first = false →
      (_abs_index (_line_starts source) first.pos.lineno first.pos.colOffset,
        _abs_index (_line_starts source) (lastStmt first rest).pos.endLineno
          (lastStmt first rest).pos.endColOffset,
        ((splitlinesKeepends source).getD (first.pos.lineno - 1) []).take
            first.pos.colOffset
          ++ "pass".toList) ∈ visitList source tree)
    ∧ (∀ (source : Text) (name : String) (first : Stmt) (rest : StmtList) (p : Pos),
      _is_docstring_stmt first = false →
      visitList source (.cons first rest) = [] →
      (source.getLast? = some '\n' →
        _abs_index (_line_starts source) (lastStmt first rest).pos.endLineno
          (lastStmt first rest).pos.endColOffset < source.length) →
      transform_core source (.cons (.functionDef name (.cons first rest) p) .nil)
        = source.take (_abs_index (_line_starts source) first.pos.lineno
            first.pos.colOffset)
          ++ (((splitlinesKeepends source).getD (first.pos.lineno - 1) []).take
              first.pos.colOffset
            ++ "pass".toList)
          ++ source.drop (_abs_index (_line_starts source)
              (lastStmt first rest).pos.endLineno
              (lastStmt first rest).pos.endColOffset)) := by
  constructor
  · intro source tree f first rest hocc hf hch hnd
    refine occurs_visit_mem source f tree hocc _ ?_
    rw [visit_funcdef source f hf, hch, _handle_pass source first rest hnd]
    exact List.mem_append_left _ (List.mem_cons_self _ _)
  · intro source name first rest p hnd hvnil hend
    refine transform_singleton source _ _ _ _ ?_ hend
    show visit source (.functionDef name (.cons first rest) p)
        ++ visitList source .nil = _
    rw [show visitList source .nil = [] from rfl, List.append_nil]
    show _handle source (.cons first rest) ++ visitList source (.cons first rest) = _
    rw [hvnil, List.append_nil, _handle_pass source first rest hnd]

/-- Concrete check: on `"def g():\n    x = 1\n"` the body span (offsets 13
to 18) is replaced by the line's indentation followed by `pass`, giving
`"def g():\n        pass\n"`. -/
theorem visitor_pass_replacement_example :
    _is_docstring_stmt (.otherSimple ⟨2, 4, 2, 9⟩) = false
    ∧ transform_core "def g():\n    x = 1\n".toList
        (.cons (.functionDef "g" (.cons (.otherSimple ⟨2, 4, 2, 9⟩) .nil) ⟨1, 0, 2, 9⟩) .nil)
      = "def g():\n        pass\n".toList :=
  ⟨by decide, by
    have h := visitor_pass_replacement.2 "def g():\n    x = 1\n".toList "g"
      (.otherSimple ⟨2, 4, 2, 9⟩) .nil ⟨1, 0, 2, 9⟩ (by decide) (by decide) (by decide)
    rw [h]
    decide⟩

/-- For every function or method node whose first body statement is a
string-literal docstring, the visitor queues exactly one replacement over
the program's own computed span (`_line_starts`-based) whose text is the
slice `ast.get_source_segment` recovers for the docstring statement -- a
slice taken at the parser's true positions (`parser_line_starts`-based),
not a reconstruction; and for a module holding one such function (with no
nested definitions) the transform output is the input with the computed
span replaced by that slice.  The computed span coincides with the
docstring statement's true position only on texts free of the extra
`str.splitlines` boundary characters; see `c2_formfeed_misplacement` for
the divergence. -/
theorem visitor_docstring_replacement :
    (∀ (source : Text) (tree : StmtList) (f first : Stmt) (rest : StmtList),
      OccursIn f tree → isFuncDef f = true → f.children = .cons first rest →
      _is_docstring_stmt first = true →
      (_abs_index (_line_starts source) first.pos.lineno first.pos.colOffset,
        _abs_index (_line_starts source) (lastStmt first rest).pos.endLineno
          (lastStmt first rest).pos.endColOffset,
        (source.take (_abs_index (parser_line_starts source) first.pos.endLineno
            first.pos.endColOffset)).drop
          (_abs_index (parser_line_starts source) first.pos.lineno first.pos.colOffset))
        ∈ visitList source tree)
    ∧ (∀ (source : Text) (name : String) (first : Stmt) (rest : StmtList) (p : Pos),
      _is_docstring_stmt first = true →
      visitList source (.cons first rest) = [] →
      (source.getLast? = some '\n' →
        _abs_index (_line_starts source) (lastStmt first rest).pos.endLineno
          (lastStmt first rest).pos.endColOffset < source.length) →
      transform_core source (.cons (.functionDef name (.cons first rest) p) .nil)
        = source.take (_abs_index (_line_starts source) first.pos.lineno
            first.pos.colOffset)
          ++ ((source.take (_abs_index (parser_line_starts source) first.pos.endLineno
              first.pos.endColOffset)).drop
            (_abs_index (parser_line_starts source) first.pos.lineno
              first.pos.colOffset))
          ++ source.drop (_abs_index (_line_starts source)
              (lastStmt first rest).pos.endLineno
              (lastStmt first rest).pos.endColOffset)) := by
  constructor
  · intro source tree f first rest hocc hf hch hd
    refine occurs_visit_mem source f tree hocc _ ?_
    rw [visit_funcdef source f hf, hch, _handle_doc source first rest hd]
    exact List.mem_append_left _ (List.mem_cons_self _ _)
  · intro source name first rest p hd hvnil hend
    refine transform_singleton source _ _ _ _ ?_ hend
    show visit source (.functionDef name (.cons first rest) p)
        ++ visitList source .nil = _
    rw [show visitList source .nil = [] from rfl, List.append_nil]
    show _handle source (.cons first rest) ++ visitList source (.cons first rest) = _
    rw [hvnil, List.append_nil, _handle_doc source first rest hd]

/-- Concrete check: on `"def f():\n    \"\"\"doc\"\"\"\n    x = 1\n"` the
body span is replaced by the docstring's own source slice, giving
`"def f():\n    \"\"\"doc\"\"\"\n"`. -/
theorem visitor_docstring_replacement_example :
    _is_docstring_stmt (.exprStr "doc" ⟨2, 4, 2, 13⟩) = true
    ∧ transform_core "def f():\n    \"\"\"doc\"\"\"\n    x = 1\n".toList
        (.cons (.functionDef "f"
          (.cons (.exprStr "doc" ⟨2, 4, 2, 13⟩) (.cons (.otherSimple ⟨3, 4, 3, 9⟩) .nil))
          ⟨1, 0, 3, 9⟩) .nil)
      = "def f():\n    \"\"\"doc\"\"\"\n".toList :=
  ⟨by decide, by
    have h := visitor_docstring_replacement.2 "def f():\n    \"\"\"doc\"\"\"\n    x = 1\n".toList "f"
      (.exprStr "doc" ⟨2, 4, 2, 13⟩) (.cons (.otherSimple ⟨3, 4, 3, 9⟩) .nil) ⟨1, 0, 3, 9⟩
      (by decide) (by decide) (by decide)
    rw [h]
    decide⟩

/-! ### Error propagation, trailing newline, and lambda claims -/

/-- C7: parse failure propagation.  When the external parser rejects the
input, the transform raises a `SyntaxError` whose message embeds the
original diagnostic and produces no output text; when the parser accepts
the input, no parse error is raised and the transform returns the spliced
text. -/
theorem c7_parse_error_propagation (source : Text) (parsed : Except SyntaxErr StmtList) :
    (∀ err, parsed = .error err →
      transform_source_preserve_outside_comments source parsed
        = .error ⟨"Failed to parse Python source: " ++ err.msg⟩)
    ∧ (∀ tree, parsed = .ok tree →
      transform_source_preserve_outside_comments source parsed
        = .ok (transform_core source tree)) := by
  constructor
  · intro err h
    subst h
    rfl
  · intro tree h
    subst h
    rfl

/-- Witness for C7: a rejected parse yields the wrapped error and no output;
an accepted parse yields an output. -/
theorem c7_parse_error_propagation_witness :
    transform_source_preserve_outside_comments [] (.error ⟨"unexpected EOF"⟩)
        = .error ⟨"Failed to parse Python source: " ++ "unexpected EOF"⟩
    ∧ transform_source_preserve_outside_comments [] (.ok .nil) = .ok [] :=
  ⟨(c7_parse_error_propagation [] (.error ⟨"unexpected EOF"⟩)).1 ⟨"unexpected EOF"⟩ rfl, by
    have h := (c7_parse_error_propagation [] (.ok .nil)).2 .nil rfl
    rw [h]
    rfl⟩

/-- C8: the splice output ends with a newline whenever the input does; when
replacements were made, the output is the spliced text with exactly one
newline appended if the input ended with a newline and the spliced text did
not, and the spliced text unchanged otherwise. -/
theorem c8_trailing_newline :
    (∀ (source : Text) (tree : StmtList), source.getLast? = some '\n' →
      (transform_core source tree).getLast? = some '\n')
    ∧ (∀ (source : Text) (tree : StmtList), visitList source tree ≠ [] →
      transform_core source tree
        = if source.getLast? = some '\n'
              ∧ ¬ (transform_spliced source tree).getLast? = some '\n'
          then transform_spliced source tree ++ ['\n']
          else transform_spliced source tree) := by
  constructor
  · intro source tree hnl
    unfold transform_core
    by_cases hrep : visitList source tree = []
    · rw [if_pos hrep]
      exact hnl
    · rw [if_neg hrep]
      by_cases hN : (transform_spliced source tree).getLast? = some '\n'
      · rw [if_neg (fun hand => hand.2 hN)]
        exact hN
      · rw [if_pos ⟨hnl, hN⟩]
        exact List.getLast?_concat _
  · intro source tree hrep
    unfold transform_core
    rw [if_neg hrep]

/-- Witness for C8 on a newline-terminated input. -/
theorem c8_trailing_newline_witness :
    ("def g():\n    x = 1\n".toList.getLast? = some '\n')
    ∧ (transform_core "def g():\n    x = 1\n".toList
        (.ofList [.functionDef "g" (.ofList [.otherSimple ⟨2, 4, 2, 9⟩]) ⟨1, 0, 2, 9⟩])).getLast?
      = some '\n' :=
  ⟨by decide, c8_trailing_newline.1 "def g():\n    x = 1\n".toList
    (.ofList [.functionDef "g" (.ofList [.otherSimple ⟨2, 4, 2, 9⟩]) ⟨1, 0, 2, 9⟩])
    (by decide)⟩

mutual
theorem mem_visit_from : ∀ (source : Text) (st : Stmt) (x : Range), x ∈ visit source st →
    ∃ f, (f = st ∨ OccursIn f st.children) ∧ isFuncDef f = true
      ∧ x ∈ _handle source f.children
  | source, .functionDef n body p, x, hx => by
    rcases List.mem_append.mp hx with h | h
    · exact ⟨.functionDef n body p, Or.inl rfl, rfl, h⟩
    · obtain ⟨f, hocc, hf, hh⟩ := mem_visitList_from source body x h
      exact ⟨f, Or.inr hocc, hf, hh⟩
  | source, .asyncFunctionDef n body p, x, hx => by
    rcases List.mem_append.mp hx with h | h
    · exact ⟨.asyncFunctionDef n body p, Or.inl rfl, rfl, h⟩
    · obtain ⟨f, hocc, hf, hh⟩ := mem_visitList_from source body x h
      exact ⟨f, Or.inr hocc, hf, hh⟩
  | source, .classDef n body p, x, hx => by
    obtain ⟨f, hocc, hf, hh⟩ := mem_visitList_from source body x hx
    exact ⟨f, Or.inr hocc, hf, hh⟩
  | source, .otherCompound cs p, x, hx => by
    obtain ⟨f, hocc, hf, hh⟩ := mem_visitList_from source cs x hx
    exact ⟨f, Or.inr hocc, hf, hh⟩
  | source, .exprStr v p, x, hx => absurd hx (List.not_mem_nil x)
  | source, .exprOther p, x, hx => absurd hx (List.not_mem_nil x)
  | source, .otherSimple p, x, hx => absurd hx (List.not_mem_nil x)
theorem mem_visitList_from : ∀ (source : Text) (l : StmtList) (x : Range),
    x ∈ visitList source l →
    ∃ f, OccursIn f l ∧ isFuncDef f = true ∧ x ∈ _handle source f.children
  | source, .nil, x, hx => absurd hx (List.not_mem_nil x)
  | source, .cons s rest, x, hx => by
    rcases List.mem_append.mp hx with h | h
    · obtain ⟨f, hor, hf, hh⟩ := mem_visit_from source s x h
      rcases hor with rfl | hocc
      · exact ⟨f, .here, hf, hh⟩
      · exact ⟨f, .inside hocc, hf, hh⟩
    · obtain ⟨f, hocc, hf, hh⟩ := mem_visitList_from source rest x h
      exact ⟨f, .there hocc, hf, hh⟩
end

mutual
theorem visit_nil_of_no_def : ∀ (source : Text) (st : Stmt), stmtHasDef st = false →
    visit source st = []
  | _, .functionDef n body p, h => by simp [stmtHasDef] at h
  | _, .asyncFunctionDef n body p, h => by simp [stmtHasDef] at h
  | source, .classDef n body p, h => visitList_nil_of_no_def source body h
  | source, .otherCompound cs p, h => visitList_nil_of_no_def source cs h
  | _, .exprStr v p, _ => rfl
  | _, .exprOther p, _ => rfl
  | _, .otherSimple p, _ => rfl
theorem visitList_nil_of_no_def : ∀ (source : Text) (l : StmtList), containsDef l = false →
    visitList source l = []
  | _, .nil, _ => rfl
  | source, .cons s rest, h => by
    have hsplit : stmtHasDef s = false ∧ containsDef rest = false := by
      have : (stmtHasDef s || containsDef rest) = false := h
      constructor
      · cases hs : stmtHasDef s
        · rfl
        · rw [hs] at this
          simp at this
      · cases hr : containsDef rest
        · rfl
        · rw [hr] at this
          simp at this
    show visit source s ++ visitList source rest = []
    rw [visit_nil_of_no_def source s hsplit.1, visitList_nil_of_no_def source rest hsplit.2]
    rfl
end

/-- C10: only `def` / `async def` nodes are treated as function-like
constructs.  Every replacement span the visitor collects comes from the body
of some `def` / `async def` node occurring in the tree (so lambda
expressions are never located or reduced), and a tree that contains no
`def` / `async def` node at all -- for instance one whose only
function-like values are lambda expressions -- is transformed to the
unchanged input, every lambda byte-identical in place. -/
theorem c10_lambda_never_reduced :
    (∀ (source : Text) (tree : StmtList) (x : Range), x ∈ visitList source tree →
      ∃ f, OccursIn f tree ∧ isFuncDef f = true ∧ x ∈ _handle source f.children)
    ∧ (∀ (source : Text) (tree : StmtList), containsDef tree = false →
      transform_core source tree = source) := by
  constructor
  · intro source tree x hx
    exact mem_visitList_from source tree x hx
  · intro source tree h
    unfold transform_core
    rw [if_pos (visitList_nil_of_no_def source tree h)]

/-- Witness for C10: a module holding one lambda expression statement
(`"add = lambda a, b: a + b\n"` parses to an assignment whose value is a
lambda; a bare lambda expression statement is `exprOther`) contains no
`def` node and is returned unchanged. -/
theorem c10_lambda_never_reduced_witness :
    containsDef (.ofList [.exprOther ⟨1, 0, 1, 11⟩]) = false
    ∧ transform_core "lambda x: x\n".toList (.ofList [.exprOther ⟨1, 0, 1, 11⟩])
      = "lambda x: x\n".toList :=
  ⟨by decide, c10_lambda_never_reduced.2 "lambda x: x\n".toList
    (.ofList [.exprOther ⟨1, 0, 1, 11⟩]) (by decide)⟩

/-- C3 (code bug): the splice transform is not idempotent.  On the input
`"def g():\n    x = 1\n"` (with its parse tree) the transform yields
`"def g():\n        pass\n"`: the replacement `indent + "pass"` is spliced
at the first body statement's start column, which already lies after the
indentation, so the indentation is doubled.  Transforming that output again
(with its parse tree, whose `pass` statement sits at column 8) yields
`"def g():\n                pass\n"`, which differs from the output, because
each application prepends the body indentation once more. -/
theorem c3_idempotence_failure :
    transform_core "def g():\n    x = 1\n".toList
        (.ofList [.functionDef "g" (.ofList [.otherSimple ⟨2, 4, 2, 9⟩]) ⟨1, 0, 2, 9⟩])
      = "def g():\n        pass\n".toList
    ∧ transform_core "def g():\n        pass\n".toList
        (.ofList [.functionDef "g" (.ofList [.otherSimple ⟨2, 8, 2, 12⟩]) ⟨1, 0, 2, 12⟩])
      = "def g():\n                pass\n".toList
    ∧ "def g():\n                pass\n".toList ≠ "def g():\n        pass\n".toList := by
  exact ⟨by decide, by decide, by decide⟩

/-- C4 (code bug): on the nested-function input of the claim, the outer
span (offsets 17 to 65, from the start of `def inner` to the end of
`return inner()`) is the only kept span and the nested function's text is
removed with it, but the spliced output is
`"def outer():\n        pass\n"` (eight spaces), not the claimed
`"def outer():\n    pass\n"`: the `pass` replacement doubles the
indentation because it is spliced after the original indent yet carries the
indent as a prefix. -/
theorem c4_nested_function_output :
    transform_core
        "def outer():\n    def inner():\n        return 2\n    return inner()\n".toList
        (.ofList [.functionDef "outer"
          (.ofList [.functionDef "inner" (.ofList [.otherSimple ⟨3, 8, 3, 16⟩]) ⟨2, 4, 3, 16⟩,
            .otherSimple ⟨4, 4, 4, 18⟩]) ⟨1, 0, 4, 18⟩])
      = "def outer():\n        pass\n".toList
    ∧ "def outer():\n        pass\n".toList ≠ "def outer():\n    pass\n".toList := by
  exact ⟨by decide, by decide⟩

/-- C1 (code bug): on the syntactically valid input
`"def a():\n    x = 1\n\x0c\ndef b():\n    y = 2\n"` (with its parse tree,
whose positions use the parser's line numbering: `y = 2` is at line 5,
column 4), the program does not replace `b`'s body with one placeholder.
`_line_starts` is built with `str.splitlines`, which splits at the form
feed while the parser does not, so the program maps `(5, 4)` to offset 25
-- the middle of `def b():` -- instead of the true offset 34, computes the
"indentation" `"def "` from the wrong line, and replaces the signature text
`"b():\n"` with `"def pass"`, leaving `"    y = 2\n"` in place: the output
is `"def a():\n        pass\n\x0c\ndef def pass    y = 2\n"`, not the
body-span replacement the claim describes. -/
theorem c1_formfeed_misplacement :
    transform_core "def a():\n    x = 1\n\x0C\ndef b():\n    y = 2\n".toList
        (.ofList [.functionDef "a" (.ofList [.otherSimple ⟨2, 4, 2, 9⟩]) ⟨1, 0, 2, 9⟩,
          .functionDef "b" (.ofList [.otherSimple ⟨5, 4, 5, 9⟩]) ⟨4, 0, 5, 9⟩])
      = "def a():\n        pass\n\x0C\ndef def pass    y = 2\n".toList
    ∧ _abs_index (_line_starts "def a():\n    x = 1\n\x0C\ndef b():\n    y = 2\n".toList) 5 4
      = 25
    ∧ _abs_index
        (parser_line_starts "def a():\n    x = 1\n\x0C\ndef b():\n    y = 2\n".toList) 5 4
      = 34
    ∧ (("def a():\n    x = 1\n\x0C\ndef b():\n    y = 2\n".toList).drop 25).take 5
      = "b():\n".toList
    ∧ (("def a():\n    x = 1\n\x0C\ndef b():\n    y = 2\n".toList).drop 34).take 5
      = "y = 2".toList
    ∧ "def a():\n        pass\n\x0C\ndef def pass    y = 2\n".toList
      ≠ "def a():\n        pass\n\x0C\ndef b():\n        pass\n".toList := by
  exact ⟨by decide, by decide, by decide, by decide, by decide, by decide⟩

/-- C2 (code bug): on the syntactically valid input
`"\x0c\ndef c():\n    \"\"\"doc\"\"\"\n    y = 2\n"`, whose function is
docstring-led, `ast.get_source_segment` (which splits lines like the
parser) recovers the correct byte-identical slice `"\"\"\"doc\"\"\""`, but
the span it is spliced over comes from the `str.splitlines`-based
`_line_starts`, which maps the docstring's position (line 3, column 4) to
offset 6 instead of the true offset 15: the program overwrites offsets 6 to
20, `"c():\n    \"\"\"do"` -- most of the signature -- with the docstring,
producing `"\x0c\ndef \"\"\"doc\"\"\"c\"\"\"\n    y = 2\n"` instead of the
claimed output body, `"\x0c\ndef c():\n    \"\"\"doc\"\"\"\n"`. -/
theorem c2_formfeed_misplacement :
    get_source_segment "\x0C\ndef c():\n    \"\"\"doc\"\"\"\n    y = 2\n".toList
        ⟨3, 4, 3, 13⟩
      = some "\"\"\"doc\"\"\"".toList
    ∧ transform_core "\x0C\ndef c():\n    \"\"\"doc\"\"\"\n    y = 2\n".toList
        (.ofList [.functionDef "c"
          (.ofList [.exprStr "doc" ⟨3, 4, 3, 13⟩, .otherSimple ⟨4, 4, 4, 9⟩]) ⟨2, 0, 4, 9⟩])
      = "\x0C\ndef \"\"\"doc\"\"\"c\"\"\"\n    y = 2\n".toList
    ∧ _abs_index (_line_starts "\x0C\ndef c():\n    \"\"\"doc\"\"\"\n    y = 2\n".toList) 3 4
      = 6
    ∧ _abs_index
        (parser_line_starts "\x0C\ndef c():\n    \"\"\"doc\"\"\"\n    y = 2\n".toList) 3 4
      = 15
    ∧ "\x0C\ndef \"\"\"doc\"\"\"c\"\"\"\n    y = 2\n".toList
      ≠ "\x0C\ndef c():\n    \"\"\"doc\"\"\"\n".toList := by
  exact ⟨by decide, by decide, by decide, by decide, by decide⟩

/-- C9 (code bug): the line-start table does not convert parser-reported
positions to absolute offsets on every source text.  In
`"def a():\n    x = 1\n\x0c\ndef b():\n    y = 2\n"` the parser's line 5 is
`"    y = 2\n"`, whose column 4 sits at absolute index 34 (the character
`y`), but `str.splitlines` -- from which `_line_starts` is built at
`src/app.py` line 38 -- also splits at the form feed, so the program's
table has an extra entry and `line_starts[5 - 1] + 4` evaluates to 25, the
character `b` in the middle of `def b():`.  The code's own comment
(`line_starts[lineno-1] + col_offset => absolute index`) states the claimed
conversion, which the parser-line table `parser_line_starts` satisfies and
the program's table does not. -/
theorem c9_formfeed_offset_divergence :
    _line_starts "def a():\n    x = 1\n\x0C\ndef b():\n    y = 2\n".toList
      = [0, 9, 19, 20, 21, 30, 40]
    ∧ (splitlinesNoFF "def a():\n    x = 1\n\x0C\ndef b():\n    y = 2\n".toList)[5 - 1]?
      = some "    y = 2\n".toList
    ∧ _abs_index (_line_starts "def a():\n    x = 1\n\x0C\ndef b():\n    y = 2\n".toList) 5 4
      = 25
    ∧ ("def a():\n    x = 1\n\x0C\ndef b():\n    y = 2\n".toList)[25]? = some 'b'
    ∧ _abs_index
        (parser_line_starts "def a():\n    x = 1\n\x0C\ndef b():\n    y = 2\n".toList) 5 4
      = 34
    ∧ ("def a():\n    x = 1\n\x0C\ndef b():\n    y = 2\n".toList)[34]? = some 'y' := by
  exact ⟨by decide, by decide, by decide, by decide, by decide, by decide⟩
